import Mathlib

/-!
Verification development for the GENwear slang-tracking data layer
(models.py) and candidate extractor (slang_scraper.py).

Strings are Lean strings; the Python string operations used by the code
(lower, strip, slicing, len) are modelled on the underlying character
lists.  SQLite tables are lists of rows; `CURRENT_TIMESTAMP` is an
abstract tick counter that advances on every committing operation.
Average engagement is an exact rational; Python round-to-one-decimal is
modelled by exact banker's rounding.
-/

namespace Genwear

/-! ## Python-like string primitives -/

/-- Whitespace for purposes of str.strip and the regex class \s. -/
def isWs (c : Char) : Bool :=
  c = ' ' || c = '\t' || c = '\n' || c = '\r' || c = '\x0b' || c = '\x0c'

/-- str.strip on a character list: drop whitespace from both ends. -/
def stripList (l : List Char) : List Char :=
  ((l.dropWhile isWs).reverse.dropWhile isWs).reverse

/-- Python str.strip. -/
def pyStrip (s : String) : String := String.mk (stripList s.data)

/-- Python str.lower (ASCII, as used by the repository). -/
def pyLower (s : String) : String := String.mk (s.data.map Char.toLower)

/-- Python s[:n] on code points. -/
def pyTake (n : Nat) (s : String) : String := String.mk (s.data.take n)

/-- Python len on code points. -/
def pyLen (s : String) : Nat := s.data.length

/-- term.lower().strip(): the normalized key every store operation uses. -/
def normKey (s : String) : String := pyStrip (pyLower s)

/-! ## Data model: the three tables of models.py -/

/-- One row of the slang_terms table. -/
structure TermRow where
  id : Nat
  term : String
  definition : Option String
  category : String
  approval_status : String
  approved_by : Option String
  approved_at : Option Nat
  rejection_reason : Option String
  first_seen : Nat
deriving DecidableEq

/-- One row of the mentions table. -/
structure MentionRow where
  id : Nat
  term_id : Nat
  platform : String
  content : String
  engagement_score : Int
  detected_at : Nat
deriving DecidableEq

/-- One row of the daily_trends table. -/
structure TrendRow where
  id : Nat
  term_id : Nat
  date : Nat
  mention_count : Nat
  total_engagement : Int
  momentum_score : ℚ
deriving DecidableEq

/-- The SlangDatabase state. -/
structure DB where
  terms : List TermRow
  mentions : List MentionRow
  daily_trends : List TrendRow
  next_term_id : Nat
  next_mention_id : Nat
  now : Nat
deriving DecidableEq

/-- Well-formedness the SQLite schema enforces: term keys are UNIQUE,
primary keys are unique, and the id counter is fresh. -/
def WF (db : DB) : Prop :=
  (db.terms.map (fun r => r.term)).Nodup ∧
  (db.terms.map (fun r => r.id)).Nodup ∧
  ∀ r ∈ db.terms, r.id < db.next_term_id

instance (db : DB) : Decidable (WF db) := by
  unfold WF; infer_instance

/-! ## Store operations (models.py) -/

/-- The condition under which add_term overwrites the stored definition of
an existing row (models.py lines 113-116): the new definition is non-empty
after stripping, and there is no current definition, or the current one is
a known placeholder, or the new one is strictly longer after stripping. -/
def shouldReplaceDef (newDef cur : Option String) : Bool :=
  match newDef with
  | none => false
  | some d =>
    !(pyStrip d).data.isEmpty &&
    (match cur with
     | none => true
     | some c =>
       c == "" || c == "Trending slang term" || c == "Approved slang term" ||
       pyLen (pyStrip c) < pyLen (pyStrip d))

/-- add_term: insert a new pending row, or on the UNIQUE conflict keep the
row and conditionally upgrade its definition.  Returns the row id. -/
def add_term (db : DB) (term : String) (definition : Option String := none)
    (category : String := "general") : Nat × DB :=
  let key := normKey term
  match db.terms.find? (fun r => r.term == key) with
  | none =>
      (db.next_term_id,
       { db with
         terms := db.terms ++
           [⟨db.next_term_id, key, definition, category, "pending",
             none, none, none, db.now⟩],
         next_term_id := db.next_term_id + 1,
         now := db.now + 1 })
  | some r =>
      let newTerms :=
        if shouldReplaceDef definition r.definition then
          db.terms.map (fun t => if t.id == r.id then { t with definition := definition } else t)
        else db.terms
      (r.id, { db with terms := newTerms, now := db.now + 1 })

/-- add_mention: upsert the term, then append one mention row with the
content truncated to 500 code points. -/
def add_mention (db : DB) (term platform content : String) (engagement : Int := 0) :
    Bool × DB :=
  let p := add_term db term none "general"
  (true,
   { p.2 with
     mentions := p.2.mentions ++
       [⟨p.2.next_mention_id, p.1, platform, pyTake 500 content, engagement, p.2.now⟩],
     next_mention_id := p.2.next_mention_id + 1,
     now := p.2.now + 1 })

/-- approve_term: set status, actor and timestamp on the normalized match;
returns whether a row matched. -/
def approve_term (db : DB) (term : String) (approved_by : String := "dashboard") :
    Bool × DB :=
  let key := normKey term
  (db.terms.any (fun r => r.term == key),
   { db with
     terms := db.terms.map (fun r =>
       if r.term == key then
         { r with approval_status := "approved", approved_by := some approved_by,
                  approved_at := some db.now }
       else r),
     now := db.now + 1 })

/-- reject_term: set status, reason, actor and timestamp on the normalized
match; returns whether a row matched. -/
def reject_term (db : DB) (term : String) (reason : String := "")
    (rejected_by : String := "dashboard") : Bool × DB :=
  let key := normKey term
  (db.terms.any (fun r => r.term == key),
   { db with
     terms := db.terms.map (fun r =>
       if r.term == key then
         { r with approval_status := "rejected", rejection_reason := some reason,
                  approved_by := some rejected_by, approved_at := some db.now }
       else r),
     now := db.now + 1 })

/-- delete_term: look the term up by normalized key; if absent return false
and change nothing, else delete its mentions, its trend rows and the term
row itself and return true. -/
def delete_term (db : DB) (term : String) : Bool × DB :=
  let key := normKey term
  match db.terms.find? (fun r => r.term == key) with
  | none => (false, db)
  | some r =>
      (true,
       { db with
         terms := db.terms.filter (fun t => t.id != r.id),
         mentions := db.mentions.filter (fun m => m.term_id != r.id),
         daily_trends := db.daily_trends.filter (fun tr => tr.term_id != r.id),
         now := db.now + 1 })

/-- bulk_delete_terms: delete_term per element, counting successes. -/
def bulk_delete_terms (db : DB) (terms : List String) : Nat × DB :=
  terms.foldl (fun acc t =>
    let p := delete_term acc.2 t
    (if p.1 then acc.1 + 1 else acc.1, p.2)) (0, db)

/-- bulk_approve_terms: per element, one UPDATE restricted to rows that
match the normalized key AND are still pending; count elements whose
UPDATE touched a row. -/
def bulk_approve_terms (db : DB) (terms : List String)
    (approved_by : String := "dashboard") : Nat × DB :=
  terms.foldl (fun acc t =>
    let key := normKey t
    let db0 := acc.2
    let matched := db0.terms.any (fun r => r.term == key && r.approval_status == "pending")
    (if matched then acc.1 + 1 else acc.1,
     { db0 with
       terms := db0.terms.map (fun r =>
         if r.term == key && r.approval_status == "pending" then
           { r with approval_status := "approved", approved_by := some approved_by,
                    approved_at := some db0.now }
         else r),
       now := db0.now + 1 })) (0, db)

/-! ## Read-side: definition cleaning, aggregation, queries -/

/-- _clean_definition (models.py lines 255-270). -/
def clean_definition : Option String → String
  | none => "No definition available"
  | some s =>
    if s.data = [] then "No definition available"
    else
      let t := stripList s.data
      if t = "Trending slang term".data ∨ t = "Approved slang term".data ∨ t = [] then
        "No definition available"
      else if 300 < t.length then String.mk (t.take 297 ++ "...".data)
      else String.mk t

/-- The mention rows of one term (the LEFT JOIN group). -/
def mentionsOf (db : DB) (tid : Nat) : List MentionRow :=
  db.mentions.filter (fun m => m.term_id == tid)

/-- COUNT(m.id) for one term. -/
def mentionCount (db : DB) (tid : Nat) : Nat := (mentionsOf db tid).length

/-- AVG(m.engagement_score) for one term, 0 when the group is empty. -/
def avgEngagement (db : DB) (tid : Nat) : ℚ :=
  (((mentionsOf db tid).map (fun m => m.engagement_score)).sum : ℤ) /
    (mentionCount db tid : ℚ)

/-- One GROUP BY st.id group together with its aggregates. -/
structure Grouped where
  row : TermRow
  mentions : Nat
  avg : ℚ
deriving DecidableEq

/-- Aggregate the given term rows against the mention store. -/
def groupedFor (db : DB) (rows : List TermRow) : List Grouped :=
  rows.map (fun st => ⟨st, mentionCount db st.id, avgEngagement db st.id⟩)

/-- Stable insertion: the newcomer c goes after every already placed d
with keep d c = true. -/
def insBy (keep : α → α → Bool) (c : α) : List α → List α
  | [] => [c]
  | d :: ds => if keep d c then d :: insBy keep c ds else c :: d :: ds

/-- Stable insertion sort (models ORDER BY and Python stable sorted). -/
def sortByb (keep : α → α → Bool) (l : List α) : List α :=
  l.foldl (fun acc c => insBy keep c acc) []

/-- ORDER BY mentions DESC, avg_engagement DESC. -/
def trendKeep (d c : Grouped) : Bool :=
  decide (c.mentions < d.mentions) ||
    (c.mentions == d.mentions && decide (c.avg ≤ d.avg))

/-- Exact banker's rounding to one decimal place (Python round(x, 1)). -/
def pyRound1 (q : ℚ) : ℚ :=
  let t := q * 10
  let f := Rat.floor t
  let r := t - (f : ℚ)
  let n : ℤ :=
    if r < 1/2 then f
    else if 1/2 < r then f + 1
    else if f % 2 = 0 then f else f + 1
  (n : ℚ) / 10

/-- One row of the get_trending_terms result. -/
structure TrendingEntry where
  id : Nat
  term : String
  definition : String
  category : String
  approval_status : String
  approved_by : Option String
  approved_at : Option Nat
  rejection_reason : Option String
  mentions : Nat
  avg_engagement : ℚ
  first_seen : Nat
deriving DecidableEq

/-- get_trending_terms (models.py lines 272-323): optional status filter,
GROUP BY, HAVING mentions > 0, ORDER BY mentions DESC then avg DESC,
LIMIT, definitions cleaned at read time. -/
def get_trending_terms (db : DB) (limit : Nat) (status : String := "all") :
    List TrendingEntry :=
  let rows := if status = "all" then db.terms
              else db.terms.filter (fun st => st.approval_status == status)
  let grouped := (groupedFor db rows).filter (fun g => decide (0 < g.mentions))
  ((sortByb trendKeep grouped).take limit).map (fun g =>
    ⟨g.row.id, g.row.term, clean_definition g.row.definition, g.row.category,
     g.row.approval_status, g.row.approved_by, g.row.approved_at,
     g.row.rejection_reason, g.mentions, pyRound1 g.avg, g.row.first_seen⟩)

/-- One row of the get_approved_terms result. -/
structure ApprovedEntry where
  id : Nat
  term : String
  definition : String
  category : String
  mentions : Nat
  avg_engagement : ℚ
  first_seen : Nat
  approved_at : Option Nat
deriving DecidableEq

/-- get_approved_terms (models.py lines 325-363): hard filter to approved,
HAVING mentions > 0, same ordering, cleaned definitions. -/
def get_approved_terms (db : DB) (limit : Nat) : List ApprovedEntry :=
  let rows := db.terms.filter (fun st => st.approval_status == "approved")
  let grouped := (groupedFor db rows).filter (fun g => decide (0 < g.mentions))
  ((sortByb trendKeep grouped).take limit).map (fun g =>
    ⟨g.row.id, g.row.term, clean_definition g.row.definition, g.row.category,
     g.mentions, pyRound1 g.avg, g.row.first_seen, g.row.approved_at⟩)

/-- WHERE st.definition IN ('Trending slang term','Approved slang term','')
OR st.definition IS NULL. -/
def isPlaceholderStored (d : Option String) : Bool :=
  match d with
  | none => true
  | some s => s == "Trending slang term" || s == "Approved slang term" || s == ""

/-- One row of the get_placeholder_terms result. -/
structure PlaceholderEntry where
  term : String
  definition : String
  mentions : Nat
deriving DecidableEq

/-- get_placeholder_terms (models.py lines 365-390): placeholder filter,
GROUP BY, no HAVING clause, ORDER BY mentions DESC, LIMIT. -/
def get_placeholder_terms (db : DB) (limit : Nat := 200) : List PlaceholderEntry :=
  let rows := db.terms.filter (fun st => isPlaceholderStored st.definition)
  let grouped := groupedFor db rows
  ((sortByb (fun d c => decide (c.mentions ≤ d.mentions)) grouped).take limit).map
    (fun g =>
      ⟨g.row.term,
       (match g.row.definition with
        | some s => if s = "" then "No definition" else s
        | none => "No definition"),
       g.mentions⟩)

/-- One row of the get_low_value_terms result. -/
structure LowValueEntry where
  term : String
  definition : String
  mentions : Nat
  approval_status : String
deriving DecidableEq

/-- get_low_value_terms (models.py lines 392-416): GROUP BY, HAVING
mentions <= max_mentions, ORDER BY mentions ASC then term, no LIMIT. -/
def get_low_value_terms (db : DB) (max_mentions : Int := 2) : List LowValueEntry :=
  let grouped := (groupedFor db db.terms).filter
    (fun g => decide ((g.mentions : Int) ≤ max_mentions))
  (sortByb (fun d c =>
      decide (d.mentions < c.mentions) ||
        (d.mentions == c.mentions && !decide (c.row.term < d.row.term))) grouped).map
    (fun g =>
      ⟨g.row.term,
       (match g.row.definition with
        | some s => if s = "" then "No definition" else s
        | none => "No definition"),
       g.mentions, g.row.approval_status⟩)

/-! ## Candidate extractor (slang_scraper.py)

The fixed word lists, in source order.  The scraper's Urban Dictionary
dependency is abstracted as a parameter: `ua` is URBAN_DICT_AVAILABLE and
`ok t` tells whether the lookup finds t with votes at or above -5. -/

def blacklist : List String :=
  ["the", "and", "for", "are", "but", "not", "you", "all", "can", "was", "one",
   "get", "has", "him", "his", "how", "now", "see", "way", "who", "did", "this",
   "that", "with", "have", "from", "they", "know", "been", "good", "time", "when",
   "come", "just", "like", "make", "take", "well", "what", "why", "which", "going",
   "today", "where", "about", "other", "really", "there", "could", "would", "should",
   "still", "being", "never", "always", "maybe", "house", "school", "work", "people",
   "reddit", "comment", "thread", "upvote", "post", "everyone", "something", "anything"]

def fashion_whitelist : List String :=
  ["wdywt", "ootd", "nyfw", "fits", "drip", "slay", "fire", "clean", "fresh",
   "sick", "hard", "fit", "outfit", "rizz", "bussin", "periodt", "vibe", "mood",
   "sus", "based", "cringe", "slaps", "lowkey", "highkey", "mid", "no cap", "bet",
   "fr", "ngl", "hits different", "W", "L", "stan", "flex", "finsta", "vsco",
   "aesthetic"]

def gen_alpha_terms : List String :=
  ["skibidi", "gyat", "ohio", "fanum tax", "npc", "goofy ahh", "sigma",
   "kai cenat", "speed moments", "sus", "mewing", "skrrt", "nahhhh",
   "womp womp", "bruh sound effect", "giga chad", "gyatt damn", "delulu",
   "kairos", "capybara"]

def confirmed_slang : List String :=
  ["rizz", "bussin", "no cap", "periodt", "slay", "bet", "fr", "ngl",
   "lowkey", "highkey", "mid", "W", "L", "sus", "skibidi", "gyat", "ohio",
   "fanum tax", "sigma", "mewing", "delulu", "cap", "goofy ahh",
   "vibe", "mood", "based", "cringe", "slaps", "hits different",
   "stan", "flex", "drip", "fire", "ratio", "simp", "main character",
   "fit", "outfit", "clean", "fresh", "hard", "sick", "wdywt", "ootd",
   "drip check", "lewk", "serving looks", "snatched", "on fleek"]

/-! A small backtracking regular-expression engine covering exactly the
constructs the five patterns of slang_scraper.py use: character classes,
literals, ordered alternation, concatenation, greedy bounded repetition of
a character class, and one capture group.  reMatch returns all matches at
the head of the input in the priority order Python's engine explores. -/

inductive RE where
  | chcls : (Char → Bool) → RE
  | lit : List Char → RE
  | alt : RE → RE → RE
  | seq : RE → RE → RE
  | rep : (Char → Bool) → Nat → Nat → RE
  | grp : RE → RE

/-- Length of the maximal prefix satisfying p. -/
def runLen (p : Char → Bool) : List Char → Nat
  | [] => 0
  | c :: cs => if p c then runLen p cs + 1 else 0

/-- All ways r matches a prefix of s, in priority order; each result is
the remaining suffix and the list of captured groups. -/
def reMatch : RE → List Char → List (List Char × List (List Char))
  | .chcls _, [] => []
  | .chcls p, c :: s => if p c then [(s, [])] else []
  | .lit l, s => if l.isPrefixOf s then [(s.drop l.length, [])] else []
  | .alt a b, s => reMatch a s ++ reMatch b s
  | .seq a b, s =>
      (reMatch a s).flatMap (fun pr =>
        (reMatch b pr.1).map (fun qr => (qr.1, pr.2 ++ qr.2)))
  | .rep p lo hi, s =>
      (List.range (min hi (runLen p s) + 1)).reverse.filterMap (fun k =>
        if lo ≤ k then some (s.drop k, ([] : List (List Char))) else none)
  | .grp r, s =>
      (reMatch r s).map (fun pr => (pr.1, s.take (s.length - pr.1.length) :: pr.2))

/-- re.findall: scan left to right, take the first match at each position,
continue after it (on a failed position, advance one character).  Returns
the single capture group of each match. -/
def findAllAux (r : RE) : Nat → List Char → List (List Char)
  | 0, _ => []
  | _ + 1, [] => []
  | fuel + 1, s@(_ :: rest) =>
      match reMatch r s with
      | [] => findAllAux r fuel rest
      | (restAfter, caps) :: _ =>
          caps.headD [] ::
            (if restAfter.length < s.length then findAllAux r fuel restAfter
             else findAllAux r fuel rest)

def findall (r : RE) (s : List Char) : List String :=
  (findAllAux r (s.length + 1) s).map String.mk

/-- The regex class [a-zA-Z]. -/
def azB (c : Char) : Bool := ('a' ≤ c && c ≤ 'z') || ('A' ≤ c && c ≤ 'Z')

/-- \s+ (the inputs are finite, so a large bound is exact). -/
def repPlusWs : RE := .rep isWs 1 1000000

def litS (s : String) : RE := .lit s.data

/-- Pattern quoted. -/
def reQuoted : RE :=
  .seq (litS "\"") (.seq (.grp (.rep (fun c => c != '"') 2 20)) (litS "\""))

/-- Pattern definition. -/
def reDefinition : RE :=
  .seq (.alt (.seq (litS "mean") (.rep (fun c => c == 's') 0 1))
        (.alt (litS "basically") (.alt (litS "like") (litS "is when"))))
    (.seq repPlusWs (.grp (.rep azB 2 15)))

/-- Pattern social_indicators. -/
def reSocial : RE :=
  .seq (.grp (.rep azB 3 15))
    (.seq repPlusWs
      (.alt (litS "🔥") (.alt (litS "👀") (.alt (litS "fr") (.alt (litS "ngl")
        (.alt (litS "lowkey") (.alt (litS "highkey")
          (.alt (litS "slaps") (litS "hits different")))))))))

/-- Pattern new_term. -/
def reNewTerm : RE :=
  .seq (.alt (litS "new") (.alt (litS "trending") (litS "fresh")))
    (.seq repPlusWs
      (.seq (.alt (litS "word") (.alt (litS "term") (litS "slang")))
        (.seq repPlusWs (.grp (.rep azB 3 15)))))

/-- Pattern explanation. -/
def reExplanation : RE :=
  .seq (.grp (.rep azB 3 15))
    (.seq repPlusWs (.seq (.alt (litS "means") (litS "is")) repPlusWs))

/-- self.slang_patterns, in dict insertion order. -/
def slang_patterns : List (String × RE) :=
  [("quoted", reQuoted), ("definition", reDefinition),
   ("social_indicators", reSocial), ("new_term", reNewTerm),
   ("explanation", reExplanation)]

/-- One extractor candidate. -/
structure Candidate where
  term : String
  context : String
  pattern : String
  confidence : ℚ
  source_platform : String
deriving DecidableEq

/-- re.match of the format regex used by is_valid_slang: only letters,
whitespace, hyphens and apostrophes, at least one character. -/
def hasFormat (s : String) : Bool :=
  !s.data.isEmpty && s.data.all (fun c => azB c || isWs c || c = '-' || c = '\x27')

/-- Python str.isdigit on ASCII input. -/
def isDigitStr (s : String) : Bool :=
  !s.data.isEmpty && s.data.all Char.isDigit

/-- term.replace(' ', '').replace('-', '').isalpha(). -/
def alphaNoSpaceHyphen (s : String) : Bool :=
  let cs := s.data.filter (fun c => c != ' ' && c != '-')
  !cs.isEmpty && cs.all Char.isAlpha

/-- is_valid_slang (slang_scraper.py lines 249-277), with the Urban
Dictionary boundary abstracted as ua/ok. -/
def is_valid_slang (ua : Bool) (ok : String → Bool) (term0 : String) : Bool :=
  let term := pyStrip (pyLower term0)
  if term.data.isEmpty || pyLen term < 2 || 20 < pyLen term || !hasFormat term then
    false
  else if blacklist.contains term then false
  else if fashion_whitelist.contains term || confirmed_slang.contains term ||
      gen_alpha_terms.contains term then true
  else if ua then ok term
  else decide (3 ≤ pyLen term) && !isDigitStr term

/-- Python substring containment (needle in hay). -/
def containsSub (needle : List Char) : List Char → Bool
  | [] => needle.isEmpty
  | c :: t => needle.isPrefixOf (c :: t) || containsSub needle t

/-- One allow-list candidate record. -/
def mkAllowCand (text src tag : String) (conf : ℚ) (t : String) : Candidate :=
  ⟨t, pyTake 200 text, tag, conf, src⟩

/-- Stage 1 of extract_slang_candidates: every fashion-whitelist term that
is a substring of the lowercased text at confidence 0.9, then every
gen-alpha term likewise at confidence 0.95. -/
def allow_candidates (text src : String) : List Candidate :=
  (fashion_whitelist.filter (fun t => containsSub t.data (pyLower text).data)).map
    (mkAllowCand text src "fashion_whitelist" (9/10)) ++
  (gen_alpha_terms.filter (fun t => containsSub t.data (pyLower text).data)).map
    (mkAllowCand text src "gen_alpha_confirmed" (19/20))

/-- The per-match body of the regex loop: basic filtering, then
is_valid_slang, then append with the pattern's confidence. -/
def candidate_step (ua : Bool) (ok : String → Bool) (text src pname : String)
    (acc : List Candidate) (m : String) : List Candidate :=
  let term := pyLower (pyStrip m)
  if blacklist.contains term || pyLen term < 3 || 15 < pyLen term ||
      isDigitStr term || !alphaNoSpaceHyphen term ||
      (acc.map (fun c => c.term)).contains term then
    acc
  else if is_valid_slang ua ok term then
    acc ++ [⟨term, pyTake 200 text, pname,
             if pname = "definition" then 7/10 else 1/2, src⟩]
  else acc

/-- Stage 2: fold the five patterns, feeding findall matches through
candidate_step, starting from the allow-list candidates. -/
def regex_candidates (ua : Bool) (ok : String → Bool) (text src : String)
    (acc0 : List Candidate) : List Candidate :=
  slang_patterns.foldl (fun acc pr =>
    (findall pr.2 (pyLower text).data).foldl (candidate_step ua ok text src pr.1) acc)
    acc0

/-- Python sorted(candidates, key=confidence, reverse=True) is stable. -/
def confKeep (d c : Candidate) : Bool := decide (c.confidence ≤ d.confidence)

/-- The final dedup loop: first occurrence of each term wins. -/
def dedup_candidates : List Candidate → List String → List Candidate
  | [], _ => []
  | c :: cs, seen =>
      if seen.contains c.term then dedup_candidates cs seen
      else c :: dedup_candidates cs (c.term :: seen)

/-- extract_slang_candidates (slang_scraper.py lines 435-505). -/
def extract_slang_candidates (ua : Bool) (ok : String → Bool) (text : String)
    (src : String := "unknown") : List Candidate :=
  if text.data.isEmpty || pyLen (pyStrip text) < 3 then []
  else
    (dedup_candidates
      (sortByb confKeep (regex_candidates ua ok text src (allow_candidates text src)))
      []).take 10

/-! Rational arithmetic in Batteries is irreducible by default; the
concrete evaluations below need it to reduce. -/

attribute [local semireducible] Rat.mul Rat.inv Rat.add Rat.sub

/-! ## Stripping lemmas -/

theorem stripList_def (l : List Char) :
    stripList l = List.rdropWhile isWs (l.dropWhile isWs) := rfl

theorem head_of_append {l t m : List Char} (h : l ++ t = m) (hl : l ≠ []) :
    m.head? = l.head? := by
  cases l with
  | nil => exact absurd rfl hl
  | cons a l => rw [← h]; rfl

theorem head?_dropWhile_ws (l : List Char) :
    ∀ c, (l.dropWhile isWs).head? = some c → isWs c = false := by
  induction l with
  | nil => intro c h; simp [List.dropWhile] at h
  | cons a l ih =>
      intro c h
      by_cases ha : isWs a
      · rw [List.dropWhile_cons, if_pos ha] at h
        exact ih c h
      · rw [List.dropWhile_cons, if_neg ha] at h
        simp only [List.head?_cons, Option.some.injEq] at h
        subst h
        exact Bool.eq_false_iff.mpr ha

theorem dropWhile_eq_self_of_head? (l : List Char)
    (h : ∀ c, l.head? = some c → isWs c = false) : l.dropWhile isWs = l := by
  cases l with
  | nil => rfl
  | cons a l =>
      rw [List.dropWhile_cons, if_neg]
      simp [h a rfl]

theorem stripList_head? (l : List Char) :
    ∀ c, (stripList l).head? = some c → isWs c = false := by
  intro c h
  obtain ⟨t, ht⟩ := List.rdropWhile_prefix isWs (l.dropWhile isWs)
  have hne : stripList l ≠ [] := by
    intro he; rw [he] at h; exact Option.noConfusion h
  have h2 : (l.dropWhile isWs).head? = (stripList l).head? :=
    head_of_append (m := l.dropWhile isWs) ht hne
  exact head?_dropWhile_ws l c (h2.trans h)

theorem dropWhile_stripList (l : List Char) :
    (stripList l).dropWhile isWs = stripList l :=
  dropWhile_eq_self_of_head? _ (stripList_head? l)

theorem rdropWhile_stripList (l : List Char) :
    List.rdropWhile isWs (stripList l) = stripList l := by
  rw [stripList_def]
  exact List.rdropWhile_idempotent _ _

theorem stripList_idem (l : List Char) : stripList (stripList l) = stripList l := by
  have : stripList (stripList l) =
      List.rdropWhile isWs ((stripList l).dropWhile isWs) := rfl
  rw [this, dropWhile_stripList, rdropWhile_stripList]

theorem stripList_trunc_fix (l : List Char) (h : 300 < (stripList l).length) :
    stripList ((stripList l).take 297 ++ "...".data) =
      (stripList l).take 297 ++ "...".data := by
  have hne : stripList l ≠ [] := by
    intro he; rw [he] at h; simp at h
  have hdr : ((stripList l).take 297 ++ "...".data).dropWhile isWs =
      (stripList l).take 297 ++ "...".data := by
    apply dropWhile_eq_self_of_head?
    intro c hc
    apply stripList_head? l c
    cases hl : stripList l with
    | nil => exact absurd hl hne
    | cons a tl =>
        rw [hl] at hc
        simp only [List.take_succ_cons, List.cons_append, List.head?_cons] at hc
        simpa using hc
  have hrd : List.rdropWhile isWs ((stripList l).take 297 ++ "...".data) =
      (stripList l).take 297 ++ "...".data := by
    rw [List.rdropWhile_eq_self_iff]
    intro hl
    rw [List.getLast_append' _ _ (by decide)]
    decide
  have : stripList ((stripList l).take 297 ++ "...".data) =
      List.rdropWhile isWs (((stripList l).take 297 ++ "...".data).dropWhile isWs) := rfl
  rw [this, hdr, hrd]

/-! ## clean_definition lemmas -/

theorem clean_definition_some_eq (s : String) :
    clean_definition (some s) =
      (if s.data = [] then ("No definition available" : String)
       else if stripList s.data = "Trending slang term".data ∨
              stripList s.data = "Approved slang term".data ∨
              stripList s.data = [] then "No definition available"
       else if 300 < (stripList s.data).length then
         String.mk ((stripList s.data).take 297 ++ "...".data)
       else String.mk (stripList s.data)) := rfl

/-- clean_definition at a stripped fixpoint that is neither a placeholder
nor over-long returns its argument unchanged. -/
theorem clean_definition_fixpoint (t : List Char) (h1 : stripList t = t)
    (h2 : ¬(t = "Trending slang term".data ∨ t = "Approved slang term".data ∨ t = []))
    (h3 : ¬ 300 < t.length) :
    clean_definition (some (String.mk t)) = String.mk t := by
  have base := clean_definition_some_eq (String.mk t)
  simp only [String.data] at base
  rw [base, h1, if_neg, if_neg h2, if_neg h3]
  intro he
  exact h2 (Or.inr (Or.inr he))

theorem clean_definition_idem (x : Option String) :
    clean_definition (some (clean_definition x)) = clean_definition x := by
  have nda : clean_definition (some "No definition available") =
      "No definition available" := by decide
  cases x with
  | none => exact nda
  | some s =>
      have base := clean_definition_some_eq s
      by_cases h0 : s.data = []
      · rw [base, if_pos h0]; exact nda
      · by_cases hph : stripList s.data = "Trending slang term".data ∨
            stripList s.data = "Approved slang term".data ∨ stripList s.data = []
        · rw [base, if_neg h0, if_pos hph]; exact nda
        · by_cases h3 : 300 < (stripList s.data).length
          · rw [base, if_neg h0, if_neg hph, if_pos h3]
            have hlen : ((stripList s.data).take 297 ++ "...".data).length = 300 := by
              rw [List.length_append, List.length_take,
                Nat.min_eq_left (by omega : 297 ≤ (stripList s.data).length)]
              decide
            apply clean_definition_fixpoint
            · exact stripList_trunc_fix s.data h3
            · intro hc
              rcases hc with hc | hc | hc
              · rw [hc] at hlen; exact absurd hlen (by decide)
              · rw [hc] at hlen; exact absurd hlen (by decide)
              · rw [hc] at hlen; exact absurd hlen (by decide)
            · intro hc
              omega
          · rw [base, if_neg h0, if_neg hph, if_neg h3]
            exact clean_definition_fixpoint _ (stripList_idem s.data) hph h3

/-- Claim C3: cleanDefinition is a pure, idempotent function: cleaning a
cleaned value is a no-op; null, empty and the fixed placeholder strings map
to the literal "No definition available"; and a definition whose stripped
content is longer than 300 characters is truncated to its first 297
characters plus an ellipsis marker. -/
theorem C3_clean_definition_pure_idempotent :
    (∀ x : Option String,
      clean_definition (some (clean_definition x)) = clean_definition x) ∧
    clean_definition none = "No definition available" ∧
    clean_definition (some "") = "No definition available" ∧
    clean_definition (some "Trending slang term") = "No definition available" ∧
    clean_definition (some "Approved slang term") = "No definition available" ∧
    (∀ s : String, 300 < pyLen (pyStrip s) →
      clean_definition (some s) = pyTake 297 (pyStrip s) ++ "...") := by
  refine ⟨clean_definition_idem, rfl, by decide, by decide, by decide, ?_⟩
  intro s h
  have h300 : 300 < (stripList s.data).length := h
  have h0 : s.data ≠ [] := by
    intro he
    rw [he] at h300
    simp [stripList] at h300
  have hph : ¬(stripList s.data = "Trending slang term".data ∨
      stripList s.data = "Approved slang term".data ∨ stripList s.data = []) := by
    intro hc
    rcases hc with hc | hc | hc <;> rw [hc] at h300 <;> simp at h300
  rw [clean_definition_some_eq s, if_neg h0, if_neg hph, if_pos h300]
  rfl

/-! ## Sorting and membership lemmas -/

theorem mem_insBy {α : Type} (keep : α → α → Bool) (c : α) (l : List α) (x : α) :
    x ∈ insBy keep c l ↔ x = c ∨ x ∈ l := by
  induction l with
  | nil => simp [insBy]
  | cons d ds ih =>
      by_cases h : keep d c
      · simp only [insBy, if_pos h, List.mem_cons, ih]
        tauto
      · simp only [insBy, if_neg h, List.mem_cons]

theorem mem_foldl_insBy {α : Type} (keep : α → α → Bool) (l : List α) :
    ∀ (acc : List α) (x : α),
      (x ∈ l.foldl (fun acc c => insBy keep c acc) acc ↔ x ∈ acc ∨ x ∈ l) := by
  induction l with
  | nil => intro acc x; simp
  | cons c cs ih =>
      intro acc x
      simp only [List.foldl_cons, ih, mem_insBy, List.mem_cons]
      tauto

theorem mem_sortByb {α : Type} (keep : α → α → Bool) (l : List α) (x : α) :
    x ∈ sortByb keep l ↔ x ∈ l := by
  simp [sortByb, mem_foldl_insBy]

theorem map_id_of_fix {α : Type} {f : α → α} {l : List α} (h : ∀ x ∈ l, f x = x) :
    l.map f = l := by
  induction l with
  | nil => rfl
  | cons a t ih =>
      simp only [List.map_cons, h a (List.mem_cons_self a t)]
      rw [ih (fun x hx => h x (List.mem_cons_of_mem a hx))]

theorem mem_groupedFor {db : DB} {rows : List TermRow} {g : Grouped}
    (h : g ∈ groupedFor db rows) :
    g.row ∈ rows ∧ g.mentions = mentionCount db g.row.id := by
  obtain ⟨st, hst, rfl⟩ := List.mem_map.1 h
  exact ⟨hst, rfl⟩

/-- Every get_trending_terms entry comes from a stored term row with a
positive mention count. -/
theorem mem_get_trending_terms {db : DB} {limit : Nat} {status : String}
    {e : TrendingEntry} (h : e ∈ get_trending_terms db limit status) :
    ∃ st ∈ db.terms, e.term = st.term ∧ e.id = st.id ∧
      e.mentions = mentionCount db st.id ∧ 0 < mentionCount db st.id := by
  obtain ⟨g, hg, rfl⟩ := List.mem_map.1 h
  have hg2 := (List.take_sublist _ _).subset hg
  rw [mem_sortByb] at hg2
  have hg3 := List.mem_filter.1 hg2
  obtain ⟨hrow, hcnt⟩ := mem_groupedFor hg3.1
  have hpos : 0 < g.mentions := of_decide_eq_true hg3.2
  refine ⟨g.row, ?_, rfl, rfl, hcnt, hcnt ▸ hpos⟩
  by_cases hs : status = "all"
  · simpa [get_trending_terms, hs] using hrow
  · simp only [get_trending_terms, if_neg hs] at hrow
    exact (List.mem_filter.1 hrow).1

/-- Every get_approved_terms entry comes from a stored, approved term row
with a positive mention count. -/
theorem mem_get_approved_terms {db : DB} {limit : Nat}
    {e : ApprovedEntry} (h : e ∈ get_approved_terms db limit) :
    ∃ st ∈ db.terms, e.term = st.term ∧ st.approval_status = "approved" ∧
      0 < mentionCount db st.id := by
  obtain ⟨g, hg, rfl⟩ := List.mem_map.1 h
  have hg2 := (List.take_sublist _ _).subset hg
  rw [mem_sortByb] at hg2
  have hg3 := List.mem_filter.1 hg2
  obtain ⟨hrow, hcnt⟩ := mem_groupedFor hg3.1
  have hpos : 0 < g.mentions := of_decide_eq_true hg3.2
  have hrow2 := List.mem_filter.1 hrow
  exact ⟨g.row, hrow2.1, rfl, by simpa using hrow2.2, hcnt ▸ hpos⟩

/-- Every get_placeholder_terms entry comes from a stored term row. -/
theorem mem_get_placeholder_terms {db : DB} {limit : Nat}
    {e : PlaceholderEntry} (h : e ∈ get_placeholder_terms db limit) :
    ∃ st ∈ db.terms, e.term = st.term := by
  obtain ⟨g, hg, rfl⟩ := List.mem_map.1 h
  have hg2 := (List.take_sublist _ _).subset hg
  rw [mem_sortByb] at hg2
  obtain ⟨hrow, -⟩ := mem_groupedFor hg2
  exact ⟨g.row, (List.mem_filter.1 hrow).1, rfl⟩

/-- Every get_low_value_terms entry comes from a stored term row. -/
theorem mem_get_low_value_terms {db : DB} {maxm : Int}
    {e : LowValueEntry} (h : e ∈ get_low_value_terms db maxm) :
    ∃ st ∈ db.terms, e.term = st.term := by
  obtain ⟨g, hg, rfl⟩ := List.mem_map.1 h
  rw [mem_sortByb] at hg
  obtain ⟨hrow, -⟩ := mem_groupedFor (List.mem_filter.1 hg).1
  exact ⟨g.row, hrow, rfl⟩

/-! ## Claim C1 -/

/-- A store holding one pending term with no mentions at all. -/
def dbGhost : DB :=
  ⟨[⟨1, "ghost", none, "general", "pending", none, none, none, 0⟩], [], [], 2, 1, 1⟩

/-- Claim C1 counterexample: the term "ghost" has zero recorded mentions,
yet it appears in the results of get_placeholder_terms and of
get_low_value_terms, which have no HAVING mentions > 0 clause. -/
theorem C1_counterexample_zero_mention_term_listed :
    mentionCount dbGhost 1 = 0 ∧
    (⟨1, "ghost", none, "general", "pending", none, none, none, 0⟩ : TermRow) ∈
      dbGhost.terms ∧
    "ghost" ∈ (get_placeholder_terms dbGhost 200).map (fun e => e.term) ∧
    "ghost" ∈ (get_low_value_terms dbGhost 2).map (fun e => e.term) := by
  decide

/-- Claim C1 (amended): a term with zero recorded mentions never appears
in get_trending_terms or get_approved_terms (the aggregation queries with
HAVING mentions > 0), for any limit and status filter; the zero-mention
exclusion does not extend to get_placeholder_terms or
get_low_value_terms. -/
theorem C1_zero_mention_terms_never_ranked :
    (∀ (db : DB) (limit : Nat) (status : String) (r : TermRow),
      WF db → r ∈ db.terms → mentionCount db r.id = 0 →
      r.term ∉ (get_trending_terms db limit status).map (fun e => e.term) ∧
      r.term ∉ (get_approved_terms db limit).map (fun e => e.term)) ∧
    "ghost" ∉ (get_trending_terms dbGhost 20 "all").map (fun e => e.term) ∧
    "ghost" ∉ (get_approved_terms dbGhost 20).map (fun e => e.term) := by
  refine ⟨?_, by decide, by decide⟩
  intro db limit status r hwf hr hzero
  constructor
  · intro hmem
    obtain ⟨e, he, hterm⟩ := List.mem_map.1 hmem
    obtain ⟨st, hst, hterm2, -, -, hpos⟩ := mem_get_trending_terms he
    have : st = r :=
      List.inj_on_of_nodup_map hwf.1 hst hr (by rw [← hterm2, hterm])
    rw [this, hzero] at hpos
    exact Nat.lt_irrefl 0 hpos
  · intro hmem
    obtain ⟨e, he, hterm⟩ := List.mem_map.1 hmem
    obtain ⟨st, hst, hterm2, -, hpos⟩ := mem_get_approved_terms he
    have : st = r :=
      List.inj_on_of_nodup_map hwf.1 hst hr (by rw [← hterm2, hterm])
    rw [this, hzero] at hpos
    exact Nat.lt_irrefl 0 hpos

/-! ## Claims C4, C7, C10 -/

/-- The empty store right after init_database. -/
def emptyDB : DB := ⟨[], [], [], 1, 1, 0⟩

theorem approve_term_fst (db : DB) (t a : String) :
    (approve_term db t a).1 = true ↔ ∃ r ∈ db.terms, r.term = normKey t := by
  simp [approve_term]

theorem reject_term_fst (db : DB) (t reason a : String) :
    (reject_term db t reason a).1 = true ↔ ∃ r ∈ db.terms, r.term = normKey t := by
  simp [reject_term]

/-- A store used to show status transitions are never blocked: one term
"drip", rejected with a reason, then approved; and one term "fade",
approved then rejected. -/
def dbC4 : DB :=
  ⟨[⟨1, "drip", none, "general", "rejected", some "mod", some 3, some "low quality", 0⟩,
    ⟨2, "fade", none, "general", "approved", some "mod", some 3, none, 0⟩],
   [], [], 3, 1, 4⟩

/-- Claim C4: approve_term and reject_term return true exactly when a row
matches the normalized term name and are a no-op on the store when no row
matches; any matching row is moved to the target status with fresh actor
and timestamp (and, for rejection, reason) regardless of its prior state,
so a rejected term can be approved, an approved term rejected, and
re-applying a status overwrites actor, timestamp and reason. -/
theorem C4_set_approval_status :
    (∀ (db : DB) (t a : String),
      ((approve_term db t a).1 = true ↔ ∃ r ∈ db.terms, r.term = normKey t)) ∧
    (∀ (db : DB) (t reason a : String),
      ((reject_term db t reason a).1 = true ↔ ∃ r ∈ db.terms, r.term = normKey t)) ∧
    (∀ (db : DB) (t a : String), (approve_term db t a).1 = false →
      (approve_term db t a).2.terms = db.terms ∧
      (approve_term db t a).2.mentions = db.mentions ∧
      (approve_term db t a).2.daily_trends = db.daily_trends) ∧
    (∀ (db : DB) (t reason a : String), (reject_term db t reason a).1 = false →
      (reject_term db t reason a).2.terms = db.terms ∧
      (reject_term db t reason a).2.mentions = db.mentions ∧
      (reject_term db t reason a).2.daily_trends = db.daily_trends) ∧
    (∀ (db : DB) (t a : String) (r : TermRow), r ∈ db.terms → r.term = normKey t →
      { r with approval_status := "approved", approved_by := some a,
               approved_at := some db.now } ∈ (approve_term db t a).2.terms) ∧
    (∀ (db : DB) (t reason a : String) (r : TermRow),
      r ∈ db.terms → r.term = normKey t →
      { r with approval_status := "rejected", rejection_reason := some reason,
               approved_by := some a, approved_at := some db.now } ∈
        (reject_term db t reason a).2.terms) ∧
    ((approve_term dbC4 "drip" "admin").1 = true ∧
     (approve_term dbC4 "drip" "admin").2.terms =
       [⟨1, "drip", none, "general", "approved", some "admin", some 4,
         some "low quality", 0⟩,
        ⟨2, "fade", none, "general", "approved", some "mod", some 3, none, 0⟩] ∧
     (reject_term dbC4 "fade" "dated" "admin").2.terms =
       [⟨1, "drip", none, "general", "rejected", some "mod", some 3,
         some "low quality", 0⟩,
        ⟨2, "fade", none, "general", "rejected", some "admin", some 4,
         some "dated", 0⟩] ∧
     (approve_term dbC4 "missing" "admin").1 = false ∧
     (approve_term dbC4 "missing" "admin").2.terms = dbC4.terms) := by
  refine ⟨approve_term_fst, reject_term_fst, ?_, ?_, ?_, ?_, ?_⟩
  · intro db t a h
    have hnone : ∀ r ∈ db.terms, ¬(r.term == normKey t) = true := by
      intro r hr hbeq
      have : (approve_term db t a).1 = true := by
        simp [approve_term]
        exact ⟨r, hr, by simpa using hbeq⟩
      rw [h] at this
      exact Bool.noConfusion this
    refine ⟨?_, rfl, rfl⟩
    show db.terms.map _ = db.terms
    apply map_id_of_fix
    intro x hx
    rw [if_neg (hnone x hx)]
  · intro db t reason a h
    have hnone : ∀ r ∈ db.terms, ¬(r.term == normKey t) = true := by
      intro r hr hbeq
      have : (reject_term db t reason a).1 = true := by
        simp [reject_term]
        exact ⟨r, hr, by simpa using hbeq⟩
      rw [h] at this
      exact Bool.noConfusion this
    refine ⟨?_, rfl, rfl⟩
    show db.terms.map _ = db.terms
    apply map_id_of_fix
    intro x hx
    rw [if_neg (hnone x hx)]
  · intro db t a r hr hkey
    refine List.mem_map.2 ⟨r, hr, ?_⟩
    simp [hkey]
  · intro db t reason a r hr hkey
    refine List.mem_map.2 ⟨r, hr, ?_⟩
    simp [hkey]
  · exact ⟨by decide, by decide, by decide, by decide, by decide⟩

/-- The store after the C7 example: upsert "Drip " with a definition, then
record one "reddit" mention of "drip" with engagement 5. -/
def dbC7 : DB :=
  (add_mention (add_term emptyDB "Drip " (some "Fashionable clothing") "fashion").2
    "drip" "reddit" "drip check" 5).2

/-- Claim C7: add_mention upserts the term first (auto-creating unknown
terms as pending), appends exactly one mention row with content truncated
to 500 code points, and returns success; and on the concrete example the
trending view holds exactly one "drip" entry with one mention, average
engagement 5 and status pending. -/
theorem C7_record_mention :
    (∀ (db : DB) (t p c : String) (e : Int),
      (add_mention db t p c e).1 = true ∧
      (add_mention db t p c e).2.terms = (add_term db t none "general").2.terms ∧
      (add_mention db t p c e).2.mentions =
        (add_term db t none "general").2.mentions ++
          [⟨(add_term db t none "general").2.next_mention_id,
            (add_term db t none "general").1, p, pyTake 500 c, e,
            (add_term db t none "general").2.now⟩] ∧
      pyLen (pyTake 500 c) ≤ 500) ∧
    get_trending_terms dbC7 10 "all" =
      [⟨1, "drip", "Fashionable clothing", "fashion", "pending",
        none, none, none, 1, 5, 0⟩] := by
  constructor
  · intro db t p c e
    refine ⟨rfl, rfl, rfl, ?_⟩
    exact List.length_take_le 500 c.data
  · decide

/-- The store after the C10 scenario: "drip" upserted, mentioned once,
rejected with the reason "low quality", then approved by "admin". -/
def dbC10 : DB :=
  (approve_term
    (reject_term
      (add_mention (add_term emptyDB "drip" none "general").2
        "drip" "reddit" "nice drip" 4).2
      "drip" "low quality" "mod").2
    "drip" "admin").2

/-- Claim C10: approve_term updates approval_status, approved_by and
approved_at but leaves rejection_reason untouched on every row, so a term
rejected with a reason and later approved still carries the stale
rejection reason, and get_trending_terms surfaces it. -/
theorem C10_stale_rejection_reason :
    (∀ (db : DB) (t a : String) (r : TermRow), r ∈ db.terms →
      ∃ s ∈ (approve_term db t a).2.terms,
        s.id = r.id ∧ s.rejection_reason = r.rejection_reason ∧
        s.term = r.term ∧ s.definition = r.definition ∧
        s.category = r.category ∧ s.first_seen = r.first_seen ∧
        (r.term = normKey t → s.approval_status = "approved" ∧
          s.approved_by = some a ∧ s.approved_at = some db.now)) ∧
    get_trending_terms dbC10 10 "all" =
      [⟨1, "drip", "No definition available", "general", "approved",
        some "admin", some 4, some "low quality", 1, 4, 0⟩] := by
  constructor
  · intro db t a r hr
    refine ⟨(fun x : TermRow =>
        if x.term == normKey t then
          { x with approval_status := "approved", approved_by := some a,
                   approved_at := some db.now }
        else x) r, List.mem_map_of_mem _ hr, ?_, ?_, ?_, ?_, ?_, ?_, ?_⟩ <;>
      by_cases hkey : r.term = normKey t <;> simp [hkey]
  · decide

/-! ## Claim C2: add_term upsert semantics -/

theorem string_eq_empty_iff (s : String) : s = "" ↔ s.data = [] := by
  cases s with
  | mk l =>
      constructor
      · intro h
        have := congrArg String.data h
        simpa using this
      · intro h
        subst h
        rfl

/-- The claim's wording of the definition-replacement condition. -/
def replaceCond (dd : String) (cur : Option String) : Prop :=
  pyStrip dd ≠ "" ∧
    (cur = none ∨ cur = some "" ∨ cur = some "Trending slang term" ∨
     cur = some "Approved slang term" ∨
     ∃ c0, cur = some c0 ∧ pyLen (pyStrip c0) < pyLen (pyStrip dd))

/-- The code's guard (models.py lines 113-116) is exactly the claim's
replacement condition. -/
theorem shouldReplaceDef_iff (dd : String) (cur : Option String) :
    shouldReplaceDef (some dd) cur = true ↔ replaceCond dd cur := by
  cases cur with
  | none =>
      simp [shouldReplaceDef, replaceCond, Ne, string_eq_empty_iff]
  | some c =>
      simp [shouldReplaceDef, replaceCond, Ne, string_eq_empty_iff]
      tauto

instance (dd : String) (cur : Option String) : Decidable (replaceCond dd cur) :=
  decidable_of_iff _ (shouldReplaceDef_iff dd cur)

theorem add_term_of_find?_none {db : DB} {name : String} {d : Option String}
    {c : String} (h : db.terms.find? (fun r => r.term == normKey name) = none) :
    add_term db name d c =
      (db.next_term_id,
       { db with
         terms := db.terms ++
           [⟨db.next_term_id, normKey name, d, c, "pending", none, none, none, db.now⟩],
         next_term_id := db.next_term_id + 1,
         now := db.now + 1 }) := by
  simp only [add_term, h]

theorem add_term_of_find?_some {db : DB} {name : String} {d : Option String}
    {c : String} {r : TermRow}
    (h : db.terms.find? (fun r => r.term == normKey name) = some r) :
    add_term db name d c =
      (r.id,
       { db with
         terms :=
           if shouldReplaceDef d r.definition then
             db.terms.map (fun t => if t.id == r.id then { t with definition := d } else t)
           else db.terms,
         now := db.now + 1 }) := by
  simp only [add_term, h]

theorem find?_key_of_mem {l : List TermRow}
    (hn : (l.map (fun r => r.term)).Nodup) {r : TermRow} (hr : r ∈ l)
    {key : String} (hk : r.term = key) :
    l.find? (fun x => x.term == key) = some r := by
  cases hfind : l.find? (fun x => x.term == key) with
  | none =>
      have := List.find?_eq_none.1 hfind r hr
      rw [hk] at this
      simp at this
  | some r2 =>
      have h1 := List.find?_some hfind
      have h2 := List.mem_of_find?_eq_some hfind
      rw [beq_iff_eq] at h1
      have : r2 = r := List.inj_on_of_nodup_map hn h2 hr (by rw [h1, hk])
      rw [this]

theorem filter_key_length_one {l : List TermRow}
    (hn : (l.map (fun r => r.term)).Nodup) {r : TermRow} (hr : r ∈ l) :
    (l.filter (fun x => x.term == r.term)).length = 1 := by
  induction l with
  | nil => cases hr
  | cons a t ih =>
      rw [List.map_cons, List.nodup_cons] at hn
      rcases List.mem_cons.1 hr with rfl | hrt
      · rw [List.filter_cons_of_pos (by simp)]
        have ht : t.filter (fun x => x.term == r.term) = [] := by
          rw [List.filter_eq_nil_iff]
          intro x hx
          simp only [beq_iff_eq]
          intro he
          exact hn.1 (he ▸ List.mem_map_of_mem (fun r => r.term) hx)
        rw [ht]
        rfl
      · rw [List.filter_cons_of_neg, ih hn.2 hrt]
        simp only [beq_iff_eq]
        intro he
        exact hn.1 (he ▸ List.mem_map_of_mem (fun r => r.term) hrt)

theorem filter_key_length_map (l : List TermRow) (f : TermRow → TermRow)
    (hf : ∀ x, (f x).term = x.term) (key : String) :
    ((l.map f).filter (fun x => x.term == key)).length =
      (l.filter (fun x => x.term == key)).length := by
  rw [List.filter_map, List.length_map]
  congr 1
  apply List.filter_congr
  intro x hx
  simp [hf]

theorem nodup_terms_map (l : List TermRow) (f : TermRow → TermRow)
    (hf : ∀ x, (f x).term = x.term)
    (hn : (l.map (fun r => r.term)).Nodup) :
    ((l.map f).map (fun r => r.term)).Nodup := by
  rw [List.map_map]
  have he : ((fun r : TermRow => r.term) ∘ f) = fun r : TermRow => r.term :=
    funext hf
  rw [he]
  exact hn

/-- Calling add_term twice with the same name returns the same id both
times and leaves exactly one row with the normalized key. -/
theorem add_term_twice (db : DB) (name : String) (d1 : Option String) (c1 : String)
    (d2 : Option String) (c2 : String) (hwf : WF db) :
    (add_term (add_term db name d1 c1).2 name d2 c2).1 = (add_term db name d1 c1).1 ∧
    ((add_term (add_term db name d1 c1).2 name d2 c2).2.terms.filter
        (fun r => r.term == normKey name)).length = 1 := by
  cases hfind : db.terms.find? (fun r => r.term == normKey name) with
  | none =>
      have e1 := add_term_of_find?_none (d := d1) (c := c1) hfind
      set new : TermRow :=
        ⟨db.next_term_id, normKey name, d1, c1, "pending", none, none, none, db.now⟩
        with hnew
      have hterms1 : (add_term db name d1 c1).2.terms = db.terms ++ [new] := by
        rw [e1]
      have hfilter0 : db.terms.filter (fun r => r.term == normKey name) = [] := by
        rw [List.filter_eq_nil_iff]
        intro x hx
        exact List.find?_eq_none.1 hfind x hx
      have hfind2 : (add_term db name d1 c1).2.terms.find?
          (fun r => r.term == normKey name) = some new := by
        rw [hterms1, List.find?_append, hfind]
        simp [hnew]
      have e2 := add_term_of_find?_some (d := d2) (c := c2) hfind2
      constructor
      · rw [e2, e1]
      · have hterms2 : (add_term (add_term db name d1 c1).2 name d2 c2).2.terms =
            if shouldReplaceDef d2 new.definition then
              ((db.terms ++ [new]).map
                (fun t => if t.id == new.id then { t with definition := d2 } else t))
            else (db.terms ++ [new]) := by
          rw [e2, hterms1]
        rw [hterms2]
        by_cases hrep : shouldReplaceDef d2 new.definition
        · rw [if_pos hrep,
            filter_key_length_map _ _ (fun x => by by_cases h : x.id == new.id <;> simp [h]),
            List.filter_append, hfilter0]
          simp [hnew]
        · rw [if_neg hrep, List.filter_append, hfilter0]
          simp [hnew]
  | some r =>
      have e1 := add_term_of_find?_some (d := d1) (c := c1) hfind
      have hkey : r.term = normKey name := by
        have := List.find?_some hfind
        rwa [beq_iff_eq] at this
      have hrmem := List.mem_of_find?_eq_some hfind
      have hf1 : ∀ x : TermRow,
          ((fun t : TermRow => if t.id == r.id then { t with definition := d1 } else t) x).term
            = x.term := by
        intro x
        by_cases h : x.id == r.id <;> simp [h]
      by_cases hrep1 : shouldReplaceDef d1 r.definition
      · have hterms1 : (add_term db name d1 c1).2.terms =
            db.terms.map (fun t => if t.id == r.id then { t with definition := d1 } else t) := by
          rw [e1, if_pos hrep1]
        have hnodup1 := nodup_terms_map db.terms _ hf1 hwf.1
        set r1 : TermRow := { r with definition := d1 } with hr1def
        have hr1 : (fun t : TermRow =>
            if t.id == r.id then { t with definition := d1 } else t) r = r1 := by
          simp [hr1def]
        have hmem1 : r1 ∈ (add_term db name d1 c1).2.terms := by
          rw [hterms1, ← hr1]
          exact List.mem_map_of_mem _ hrmem
        have hfind2 : (add_term db name d1 c1).2.terms.find?
            (fun x => x.term == normKey name) = some r1 :=
          find?_key_of_mem (by rw [hterms1]; exact hnodup1) hmem1 hkey
        have e2 := add_term_of_find?_some (d := d2) (c := c2) hfind2
        constructor
        · rw [e2, e1]
        · have hterms2 := congrArg (fun p : Nat × DB => p.2.terms) e2
          simp only at hterms2
          rw [hterms2]
          by_cases hrep2 : shouldReplaceDef d2 r1.definition
          · rw [if_pos hrep2, filter_key_length_map _ _
              (fun x => by by_cases h : x.id == r1.id <;> simp [h]),
              hterms1, filter_key_length_map _ _ hf1, ← hkey]
            exact filter_key_length_one hwf.1 hrmem
          · rw [if_neg hrep2, hterms1, filter_key_length_map _ _ hf1, ← hkey]
            exact filter_key_length_one hwf.1 hrmem
      · have hterms1 : (add_term db name d1 c1).2.terms = db.terms := by
          rw [e1, if_neg hrep1]
        have hfind2 : (add_term db name d1 c1).2.terms.find?
            (fun x => x.term == normKey name) = some r := by
          rw [hterms1, hfind]
        have e2 := add_term_of_find?_some (d := d2) (c := c2) hfind2
        constructor
        · rw [e2, e1]
        · have hterms2 := congrArg (fun p : Nat × DB => p.2.terms) e2
          simp only at hterms2
          rw [hterms2]
          by_cases hrep2 : shouldReplaceDef d2 r.definition
          · rw [if_pos hrep2, hterms1, filter_key_length_map _ _
              (fun x => by by_cases h : x.id == r.id <;> simp [h]), ← hkey]
            exact filter_key_length_one hwf.1 hrmem
          · rw [if_neg hrep2, hterms1, ← hkey]
            exact filter_key_length_one hwf.1 hrmem

/-- When the key is unknown, add_term inserts a fresh pending row. -/
theorem add_term_insert (db : DB) (name : String) (d : Option String) (c : String)
    (habs : ∀ r ∈ db.terms, r.term ≠ normKey name) :
    (⟨db.next_term_id, normKey name, d, c, "pending", none, none, none, db.now⟩ :
      TermRow) ∈ (add_term db name d c).2.terms := by
  have hfind : db.terms.find? (fun r => r.term == normKey name) = none := by
    rw [List.find?_eq_none]
    intro x hx
    simpa using habs x hx
  rw [add_term_of_find?_none hfind]
  simp

/-- On an existing row, add_term keeps id, key, status, category, approval
metadata and first_seen, and replaces the definition exactly when the
claim's replacement condition holds. -/
theorem add_term_existing (db : DB) (name : String) (d : Option String)
    (cat : String) (r : TermRow) (hwf : WF db) (hr : r ∈ db.terms)
    (hkey : r.term = normKey name) :
    ∃ s ∈ (add_term db name d cat).2.terms, s.id = r.id ∧ s.term = r.term ∧
      s.approval_status = r.approval_status ∧ s.category = r.category ∧
      s.approved_by = r.approved_by ∧ s.approved_at = r.approved_at ∧
      s.rejection_reason = r.rejection_reason ∧ s.first_seen = r.first_seen ∧
      (d = none → s.definition = r.definition) ∧
      (∀ dd, d = some dd →
        s.definition = if replaceCond dd r.definition then some dd else r.definition) := by
  have hfind := find?_key_of_mem hwf.1 hr hkey
  have e := add_term_of_find?_some (d := d) (c := cat) hfind
  have hterms := congrArg (fun p : Nat × DB => p.2.terms) e
  simp only at hterms
  by_cases hrep : shouldReplaceDef d r.definition
  · refine ⟨{ r with definition := d }, ?_, rfl, rfl, rfl, rfl, rfl, rfl, rfl, rfl,
      ?_, ?_⟩
    · rw [hterms, if_pos hrep]
      have := List.mem_map_of_mem
        (f := fun t : TermRow => if t.id == r.id then { t with definition := d } else t) hr
      simpa using this
    · intro hd
      rw [hd] at hrep
      simp [shouldReplaceDef] at hrep
    · intro dd hd
      subst hd
      rw [if_pos ((shouldReplaceDef_iff dd r.definition).1 hrep)]
  · refine ⟨r, ?_, rfl, rfl, rfl, rfl, rfl, rfl, rfl, rfl, fun _ => rfl, ?_⟩
    · rw [hterms, if_neg hrep]
      exact hr
    · intro dd hd
      subst hd
      rw [if_neg (fun hc => hrep ((shouldReplaceDef_iff dd r.definition).2 hc))]

/-- add_term never overwrites a longer real definition with a shorter one. -/
theorem add_term_no_shorten (db : DB) (name dd cat : String) (r : TermRow)
    (c0 : String) (hwf : WF db) (hr : r ∈ db.terms) (hkey : r.term = normKey name)
    (hc0 : r.definition = some c0) (h1 : c0 ≠ "") (h2 : c0 ≠ "Trending slang term")
    (h3 : c0 ≠ "Approved slang term")
    (hlen : pyLen (pyStrip dd) ≤ pyLen (pyStrip c0)) :
    ∃ s ∈ (add_term db name (some dd) cat).2.terms,
      s.id = r.id ∧ s.definition = some c0 := by
  obtain ⟨s, hs, hid, -, -, -, -, -, -, -, -, hdef⟩ :=
    add_term_existing db name (some dd) cat r hwf hr hkey
  refine ⟨s, hs, hid, ?_⟩
  rw [hdef dd rfl, if_neg, hc0]
  intro hc
  obtain ⟨-, hc⟩ := hc
  rw [hc0] at hc
  rcases hc with hc | hc | hc | hc | ⟨c1, hc1, hlt⟩
  · exact Option.noConfusion hc
  · exact h1 (Option.some.inj hc)
  · exact h2 (Option.some.inj hc)
  · exact h3 (Option.some.inj hc)
  · cases Option.some.inj hc1
    omega

/-- A store with one approved term whose stored definition is a
placeholder. -/
def dbPlaceholder : DB :=
  ⟨[⟨1, "drip", some "Trending slang term", "general", "approved",
     none, none, none, 0⟩], [], [], 2, 1, 7⟩

/-- Claim C2: upsertTerm is idempotent on the normalized key (two calls
with the same name return the same id and leave exactly one row), inserts
unknown terms as pending, never changes the approval status of an existing
row, and replaces the stored definition exactly when the new definition is
non-empty and the current one is absent, a placeholder, or strictly
shorter; it never replaces a longer real definition with a shorter one. -/
theorem C2_upsert_term :
    (∀ (db : DB) (name : String) (d1 : Option String) (c1 : String)
        (d2 : Option String) (c2 : String), WF db →
      (add_term (add_term db name d1 c1).2 name d2 c2).1 =
        (add_term db name d1 c1).1 ∧
      ((add_term (add_term db name d1 c1).2 name d2 c2).2.terms.filter
          (fun r => r.term == normKey name)).length = 1) ∧
    (∀ (db : DB) (name : String) (d : Option String) (c : String),
      (∀ r ∈ db.terms, r.term ≠ normKey name) →
      (⟨db.next_term_id, normKey name, d, c, "pending", none, none, none, db.now⟩ :
        TermRow) ∈ (add_term db name d c).2.terms) ∧
    (∀ (db : DB) (name : String) (d : Option String) (cat : String) (r : TermRow),
      WF db → r ∈ db.terms → r.term = normKey name →
      ∃ s ∈ (add_term db name d cat).2.terms, s.id = r.id ∧ s.term = r.term ∧
        s.approval_status = r.approval_status ∧ s.category = r.category ∧
        s.approved_by = r.approved_by ∧ s.approved_at = r.approved_at ∧
        s.rejection_reason = r.rejection_reason ∧ s.first_seen = r.first_seen ∧
        (d = none → s.definition = r.definition) ∧
        (∀ dd, d = some dd →
          s.definition = if replaceCond dd r.definition then some dd else r.definition)) ∧
    (∀ (db : DB) (name dd cat : String) (r : TermRow) (c0 : String),
      WF db → r ∈ db.terms → r.term = normKey name → r.definition = some c0 →
      c0 ≠ "" → c0 ≠ "Trending slang term" → c0 ≠ "Approved slang term" →
      pyLen (pyStrip dd) ≤ pyLen (pyStrip c0) →
      ∃ s ∈ (add_term db name (some dd) cat).2.terms,
        s.id = r.id ∧ s.definition = some c0) ∧
    ((add_term (add_term emptyDB "Drip " (some "Fashionable clothing") "fashion").2
        "drip" (some "clothes") "general").1 = 1 ∧
     (add_term (add_term emptyDB "Drip " (some "Fashionable clothing") "fashion").2
        "drip" (some "clothes") "general").2.terms =
       [⟨1, "drip", some "Fashionable clothing", "fashion", "pending",
         none, none, none, 0⟩] ∧
     (add_term dbPlaceholder "drip" (some "cool") "ignored").2.terms =
       [⟨1, "drip", some "cool", "general", "approved", none, none, none, 0⟩]) :=
  ⟨add_term_twice, add_term_insert, add_term_existing, add_term_no_shorten,
    by decide, by decide, by decide⟩

/-! ## Claim C6: delete_term -/

theorem delete_term_of_find?_none {db : DB} {term : String}
    (h : db.terms.find? (fun r => r.term == normKey term) = none) :
    delete_term db term = (false, db) := by
  simp only [delete_term, h]

theorem delete_term_of_find?_some {db : DB} {term : String} {r : TermRow}
    (h : db.terms.find? (fun r => r.term == normKey term) = some r) :
    delete_term db term =
      (true,
       { db with
         terms := db.terms.filter (fun t => t.id != r.id),
         mentions := db.mentions.filter (fun m => m.term_id != r.id),
         daily_trends := db.daily_trends.filter (fun tr => tr.term_id != r.id),
         now := db.now + 1 }) := by
  simp only [delete_term, h]

/-- delete_term on an existing key: returns true, and afterwards no term
row has the key, no mention or trend row references the deleted id, and
the key is absent from all four queries. -/
theorem delete_term_existing (db : DB) (term : String) (r : TermRow)
    (hwf : WF db) (hr : r ∈ db.terms) (hkey : r.term = normKey term) :
    (delete_term db term).1 = true ∧
    (∀ t ∈ (delete_term db term).2.terms, t.term ≠ normKey term) ∧
    (∀ m ∈ (delete_term db term).2.mentions, m.term_id ≠ r.id) ∧
    (∀ tr ∈ (delete_term db term).2.daily_trends, tr.term_id ≠ r.id) ∧
    (∀ limit status, normKey term ∉
      (get_trending_terms (delete_term db term).2 limit status).map (fun e => e.term)) ∧
    (∀ limit, normKey term ∉
      (get_approved_terms (delete_term db term).2 limit).map (fun e => e.term)) ∧
    (∀ limit, normKey term ∉
      (get_placeholder_terms (delete_term db term).2 limit).map (fun e => e.term)) ∧
    (∀ maxm, normKey term ∉
      (get_low_value_terms (delete_term db term).2 maxm).map (fun e => e.term)) := by
  have hfind := find?_key_of_mem hwf.1 hr hkey
  have e := delete_term_of_find?_some hfind
  have hterms : (delete_term db term).2.terms =
      db.terms.filter (fun t => t.id != r.id) := by rw [e]
  have hnot : ∀ t ∈ (delete_term db term).2.terms, t.term ≠ normKey term := by
    intro t ht hteq
    rw [hterms] at ht
    obtain ⟨htmem, htid⟩ := List.mem_filter.1 ht
    have : t = r := List.inj_on_of_nodup_map hwf.1 htmem hr (by rw [hteq, hkey])
    rw [this] at htid
    simp at htid
  refine ⟨by rw [e], hnot, ?_, ?_, ?_, ?_, ?_, ?_⟩
  · intro m hm
    rw [e] at hm
    have := (List.mem_filter.1 hm).2
    simpa using this
  · intro tr htr
    rw [e] at htr
    have := (List.mem_filter.1 htr).2
    simpa using this
  · intro limit status hmem
    obtain ⟨en, hen, hterm⟩ := List.mem_map.1 hmem
    obtain ⟨st, hst, hterm2, -⟩ := mem_get_trending_terms hen
    exact hnot st hst (by rw [← hterm2, hterm])
  · intro limit hmem
    obtain ⟨en, hen, hterm⟩ := List.mem_map.1 hmem
    obtain ⟨st, hst, hterm2, -⟩ := mem_get_approved_terms hen
    exact hnot st hst (by rw [← hterm2, hterm])
  · intro limit hmem
    obtain ⟨en, hen, hterm⟩ := List.mem_map.1 hmem
    obtain ⟨st, hst, hterm2⟩ := mem_get_placeholder_terms hen
    exact hnot st hst (by rw [← hterm2, hterm])
  · intro maxm hmem
    obtain ⟨en, hen, hterm⟩ := List.mem_map.1 hmem
    obtain ⟨st, hst, hterm2⟩ := mem_get_low_value_terms hen
    exact hnot st hst (by rw [← hterm2, hterm])

/-- Claim C6: deleteTerm on an existing term removes every mention row and
every daily-trend row referencing the term and the term row itself and
returns true; on an unknown term it returns false and changes nothing;
after a successful deletion the term is absent from every query. -/
theorem C6_delete_term_cascades :
    (∀ (db : DB) (term : String),
      ((delete_term db term).1 = true ↔ ∃ r ∈ db.terms, r.term = normKey term)) ∧
    (∀ (db : DB) (term : String),
      (delete_term db term).1 = false → (delete_term db term).2 = db) ∧
    (∀ (db : DB) (term : String) (r : TermRow),
      WF db → r ∈ db.terms → r.term = normKey term →
      (delete_term db term).1 = true ∧
      (∀ t ∈ (delete_term db term).2.terms, t.term ≠ normKey term) ∧
      (∀ m ∈ (delete_term db term).2.mentions, m.term_id ≠ r.id) ∧
      (∀ tr ∈ (delete_term db term).2.daily_trends, tr.term_id ≠ r.id) ∧
      (∀ limit status, normKey term ∉
        (get_trending_terms (delete_term db term).2 limit status).map (fun e => e.term)) ∧
      (∀ limit, normKey term ∉
        (get_approved_terms (delete_term db term).2 limit).map (fun e => e.term)) ∧
      (∀ limit, normKey term ∉
        (get_placeholder_terms (delete_term db term).2 limit).map (fun e => e.term)) ∧
      (∀ maxm, normKey term ∉
        (get_low_value_terms (delete_term db term).2 maxm).map (fun e => e.term))) ∧
    ((delete_term dbC7 "drip").1 = true ∧
     (delete_term dbC7 "drip").2.terms = [] ∧
     (delete_term dbC7 "drip").2.mentions = [] ∧
     get_trending_terms (delete_term dbC7 "drip").2 10 "all" = [] ∧
     get_placeholder_terms (delete_term dbC7 "drip").2 200 = [] ∧
     get_low_value_terms (delete_term dbC7 "drip").2 2 = [] ∧
     delete_term dbC7 "missing" = (false, dbC7)) := by
  refine ⟨?_, ?_, delete_term_existing, by decide, by decide, by decide, by decide,
    by decide, by decide, by decide⟩
  · intro db term
    cases hfind : db.terms.find? (fun r => r.term == normKey term) with
    | none =>
        rw [delete_term_of_find?_none hfind]
        constructor
        · intro h
          exact Bool.noConfusion h
        · rintro ⟨r, hr, hk⟩
          have := List.find?_eq_none.1 hfind r hr
          rw [hk] at this
          simp at this
    | some r =>
        rw [delete_term_of_find?_some hfind]
        constructor
        · intro _
          refine ⟨r, List.mem_of_find?_eq_some hfind, ?_⟩
          have := List.find?_some hfind
          rwa [beq_iff_eq] at this
        · intro _
          rfl
  · intro db term h
    cases hfind : db.terms.find? (fun r => r.term == normKey term) with
    | none => rw [delete_term_of_find?_none hfind]
    | some r =>
        rw [delete_term_of_find?_some hfind] at h
        exact Bool.noConfusion h

/-! ## Claim C5: bulk operations -/

theorem nodup_ids_map (l : List TermRow) (f : TermRow → TermRow)
    (hf : ∀ x, (f x).id = x.id)
    (hn : (l.map (fun r => r.id)).Nodup) :
    ((l.map f).map (fun r => r.id)).Nodup := by
  rw [List.map_map]
  have he : ((fun r : TermRow => r.id) ∘ f) = fun r : TermRow => r.id := funext hf
  rw [he]
  exact hn

theorem WF_map_tick (db : DB) (f : TermRow → TermRow)
    (hterm : ∀ x, (f x).term = x.term) (hid : ∀ x, (f x).id = x.id)
    (hwf : WF db) (n : Nat) :
    WF { db with terms := db.terms.map f, now := n } := by
  refine ⟨nodup_terms_map _ _ hterm hwf.1, nodup_ids_map _ _ hid hwf.2.1, ?_⟩
  intro r hr
  obtain ⟨x, hx, rfl⟩ := List.mem_map.1 hr
  rw [hid]
  exact hwf.2.2 x hx

theorem WF_tick (db : DB) (hwf : WF db) (n : Nat) :
    WF { db with now := n } := hwf

/-- The per-element step of the claim's reading of bulkApprove: skip a
term that is missing or not pending, otherwise apply the singular approve
and count it. -/
def approveStep (actor : String) (acc : Nat × DB) (t : String) : Nat × DB :=
  if ∃ r ∈ acc.2.terms, r.term = normKey t ∧ r.approval_status = "pending" then
    (acc.1 + 1, (approve_term acc.2 t actor).2)
  else
    (acc.1, { acc.2 with now := acc.2.now + 1 })

theorem bulk_approve_step_eq (actor t : String) (acc : Nat × DB) (hwf : WF acc.2) :
    (let key := normKey t
     let db0 := acc.2
     let matched := db0.terms.any (fun r => r.term == key && r.approval_status == "pending")
     ((if matched then acc.1 + 1 else acc.1,
       { db0 with
         terms := db0.terms.map (fun r =>
           if r.term == key && r.approval_status == "pending" then
             { r with approval_status := "approved", approved_by := some actor,
                      approved_at := some db0.now }
           else r),
         now := db0.now + 1 }) : Nat × DB)) = approveStep actor acc t := by
  simp only []
  by_cases hm : acc.2.terms.any
      (fun r => r.term == normKey t && r.approval_status == "pending") = true
  · obtain ⟨r, hr, hrp⟩ := List.any_eq_true.1 hm
    rw [Bool.and_eq_true, beq_iff_eq, beq_iff_eq] at hrp
    have hstep : approveStep actor acc t =
        (acc.1 + 1, (approve_term acc.2 t actor).2) := by
      rw [approveStep, if_pos ⟨r, hr, hrp⟩]
    rw [hstep, hm, if_pos rfl]
    have hmap : acc.2.terms.map (fun x =>
        if x.term == normKey t && x.approval_status == "pending" then
          { x with approval_status := "approved", approved_by := some actor,
                   approved_at := some acc.2.now }
        else x) =
        acc.2.terms.map (fun x =>
        if x.term == normKey t then
          { x with approval_status := "approved", approved_by := some actor,
                   approved_at := some acc.2.now }
        else x) := by
      apply List.map_congr_left
      intro x hx
      by_cases hxk : x.term = normKey t
      · have : x = r := List.inj_on_of_nodup_map hwf.1 hx hr (by rw [hxk, hrp.1])
        rw [this]
        simp [hrp.1, hrp.2]
      · simp [hxk]
    rw [hmap]
    rfl
  · rw [Bool.not_eq_true] at hm
    have hstep : approveStep actor acc t =
        (acc.1, { acc.2 with now := acc.2.now + 1 }) := by
      rw [approveStep, if_neg]
      rintro ⟨r, hr, hk, hp⟩
      rw [List.any_eq_false] at hm
      exact hm r hr (by simp [hk, hp])
    rw [hstep, hm]
    have hmap : acc.2.terms.map (fun x =>
        if x.term == normKey t && x.approval_status == "pending" then
          { x with approval_status := "approved", approved_by := some actor,
                   approved_at := some acc.2.now }
        else x) = acc.2.terms := by
      apply map_id_of_fix
      intro x hx
      rw [List.any_eq_false] at hm
      rw [if_neg (by simpa using hm x hx)]
    rw [if_neg (by simp), hmap]

theorem approveStep_WF (actor t : String) (acc : Nat × DB) (hwf : WF acc.2) :
    WF (approveStep actor acc t).2 := by
  rw [approveStep]
  by_cases h : ∃ r ∈ acc.2.terms, r.term = normKey t ∧ r.approval_status = "pending"
  · rw [if_pos h]
    exact WF_map_tick _ _
      (fun x => by by_cases hx : x.term == normKey t <;> simp [hx])
      (fun x => by by_cases hx : x.term == normKey t <;> simp [hx])
      hwf _
  · rw [if_neg h]
    exact WF_tick _ hwf _

theorem bulk_approve_eq_fold (actor : String) (terms : List String) :
    ∀ acc : Nat × DB, WF acc.2 →
      terms.foldl (fun acc t =>
        let key := normKey t
        let db0 := acc.2
        let matched := db0.terms.any
          (fun r => r.term == key && r.approval_status == "pending")
        (if matched then acc.1 + 1 else acc.1,
         { db0 with
           terms := db0.terms.map (fun r =>
             if r.term == key && r.approval_status == "pending" then
               { r with approval_status := "approved", approved_by := some actor,
                        approved_at := some db0.now }
             else r),
           now := db0.now + 1 })) acc =
      terms.foldl (approveStep actor) acc := by
  induction terms with
  | nil => intro acc _; rfl
  | cons t ts ih =>
      intro acc hwf
      rw [List.foldl_cons, List.foldl_cons, bulk_approve_step_eq actor t acc hwf]
      exact ih _ (approveStep_WF actor t acc hwf)

/-- A store for the bulk demos: one pending, one approved, one rejected. -/
def dbBulk : DB :=
  ⟨[⟨1, "rizz", none, "general", "pending", none, none, none, 0⟩,
    ⟨2, "drip", none, "general", "approved", some "mod", some 1, none, 0⟩,
    ⟨3, "mid", none, "general", "rejected", some "mod", some 2, some "meh", 0⟩],
   [], [], 4, 1, 5⟩

/-- Claim C5: bulk_approve_terms applies the singular approve per element,
skipping missing or non-pending terms, and returns the number approved;
bulk_delete_terms applies the singular delete per element and counts
successes. -/
theorem C5_bulk_operations :
    (∀ (db : DB) (terms : List String) (actor : String), WF db →
      bulk_approve_terms db terms actor = terms.foldl (approveStep actor) (0, db)) ∧
    (∀ (db : DB) (terms : List String),
      bulk_delete_terms db terms = terms.foldl (fun acc t =>
        (if (delete_term acc.2 t).1 then acc.1 + 1 else acc.1,
         (delete_term acc.2 t).2)) (0, db)) ∧
    ((bulk_approve_terms dbBulk ["rizz", "drip", "mid", "ghost", "rizz"] "admin").1 = 1 ∧
     (bulk_approve_terms dbBulk ["rizz", "drip", "mid", "ghost", "rizz"] "admin").2.terms =
       [⟨1, "rizz", none, "general", "approved", some "admin", some 5, none, 0⟩,
        ⟨2, "drip", none, "general", "approved", some "mod", some 1, none, 0⟩,
        ⟨3, "mid", none, "general", "rejected", some "mod", some 2, some "meh", 0⟩] ∧
     (bulk_delete_terms dbBulk ["drip", "ghost", "mid"]).1 = 2 ∧
     (bulk_delete_terms dbBulk ["drip", "ghost", "mid"]).2.terms =
       [⟨1, "rizz", none, "general", "pending", none, none, none, 0⟩]) := by
  refine ⟨?_, fun db terms => rfl, by decide, by decide, by decide, by decide⟩
  intro db terms actor hwf
  exact bulk_approve_eq_fold actor terms (0, db) hwf

/-! ## Extractor lemmas (claims C8 and C9) -/

def regexNames : List String :=
  ["quoted", "definition", "social_indicators", "new_term", "explanation"]

/-- The basic-filter and confidence facts carried by every candidate the
regex stage appends under pattern pname. -/
def regexCandProp (pname : String) (x : Candidate) : Prop :=
  x.pattern = pname ∧ blacklist.contains x.term = false ∧
  3 ≤ pyLen x.term ∧ pyLen x.term ≤ 15 ∧ isDigitStr x.term = false ∧
  alphaNoSpaceHyphen x.term = true ∧
  x.confidence = (if pname = "definition" then (7 : ℚ)/10 else 1/2)

theorem candidate_step_mem {ua : Bool} {ok : String → Bool}
    {text src pname : String} {acc : List Candidate} {m : String} {x : Candidate}
    (h : x ∈ candidate_step ua ok text src pname acc m) :
    x ∈ acc ∨ regexCandProp pname x := by
  rw [candidate_step] at h
  by_cases h1 : (blacklist.contains (pyLower (pyStrip m)) ||
      decide (pyLen (pyLower (pyStrip m)) < 3) ||
      decide (15 < pyLen (pyLower (pyStrip m))) ||
      isDigitStr (pyLower (pyStrip m)) ||
      !alphaNoSpaceHyphen (pyLower (pyStrip m)) ||
      ((acc.map (fun c => c.term)).contains (pyLower (pyStrip m)))) = true
  · rw [if_pos h1] at h
    exact Or.inl h
  · rw [if_neg h1] at h
    simp only [Bool.or_eq_true, not_or, Bool.not_eq_true] at h1
    obtain ⟨⟨⟨⟨⟨hb, hl3⟩, hl15⟩, hd⟩, ha⟩, -⟩ := h1
    by_cases h2 : is_valid_slang ua ok (pyLower (pyStrip m)) = true
    · rw [if_pos h2] at h
      rcases List.mem_append.1 h with h | h
      · exact Or.inl h
      · rcases List.mem_singleton.1 h with rfl
        refine Or.inr ⟨rfl, hb, ?_, ?_, hd, ?_, rfl⟩
        · have := of_decide_eq_false hl3
          show 3 ≤ pyLen (pyLower (pyStrip m))
          omega
        · have := of_decide_eq_false hl15
          show pyLen (pyLower (pyStrip m)) ≤ 15
          omega
        · show alphaNoSpaceHyphen (pyLower (pyStrip m)) = true
          simpa using ha
    · rw [if_neg h2] at h
      exact Or.inl h

theorem foldl_candidate_step_mem {ua : Bool} {ok : String → Bool}
    {text src pname : String} (ms : List String) :
    ∀ (acc : List Candidate) (x : Candidate),
      x ∈ ms.foldl (candidate_step ua ok text src pname) acc →
      x ∈ acc ∨ regexCandProp pname x := by
  induction ms with
  | nil => intro acc x h; exact Or.inl h
  | cons m ms ih =>
      intro acc x h
      rcases ih _ x h with h2 | h2
      · exact candidate_step_mem h2
      · exact Or.inr h2

theorem foldl_patterns_mem {ua : Bool} {ok : String → Bool} {text src : String}
    (ps : List (String × RE)) :
    ∀ (acc0 : List Candidate) (x : Candidate),
      x ∈ ps.foldl (fun acc pr =>
        (findall pr.2 (pyLower text).data).foldl
          (candidate_step ua ok text src pr.1) acc) acc0 →
      x ∈ acc0 ∨ ∃ pr ∈ ps, regexCandProp pr.1 x := by
  induction ps with
  | nil => intro acc0 x h; exact Or.inl h
  | cons pr ps ih =>
      intro acc0 x h
      rcases ih _ x h with h2 | h2
      · rcases foldl_candidate_step_mem _ _ _ h2 with h3 | h3
        · exact Or.inl h3
        · exact Or.inr ⟨pr, List.mem_cons_self pr ps, h3⟩
      · obtain ⟨pr2, hpr2, h3⟩ := h2
        exact Or.inr ⟨pr2, List.mem_cons_of_mem pr hpr2, h3⟩

theorem regex_candidates_mem {ua : Bool} {ok : String → Bool} {text src : String}
    {acc0 : List Candidate} {x : Candidate}
    (h : x ∈ regex_candidates ua ok text src acc0) :
    x ∈ acc0 ∨ ∃ pname ∈ regexNames, regexCandProp pname x := by
  rcases foldl_patterns_mem slang_patterns acc0 x h with h2 | h2
  · exact Or.inl h2
  · obtain ⟨pr, hpr, h3⟩ := h2
    refine Or.inr ⟨pr.1, ?_, h3⟩
    simp only [slang_patterns, List.mem_cons, List.not_mem_nil, or_false] at hpr
    rcases hpr with rfl | rfl | rfl | rfl | rfl <;> decide

theorem allow_candidates_mem {text src : String} {x : Candidate}
    (h : x ∈ allow_candidates text src) :
    (x.pattern = "fashion_whitelist" ∧ x.confidence = 9/10) ∨
    (x.pattern = "gen_alpha_confirmed" ∧ x.confidence = 19/20) := by
  rcases List.mem_append.1 h with h | h
  · obtain ⟨t, -, rfl⟩ := List.mem_map.1 h
    exact Or.inl ⟨rfl, rfl⟩
  · obtain ⟨t, -, rfl⟩ := List.mem_map.1 h
    exact Or.inr ⟨rfl, rfl⟩

/-! Append structure of the stages (allow-list emitted first). -/

theorem candidate_step_append (ua : Bool) (ok : String → Bool)
    (text src pname : String) (acc : List Candidate) (m : String) :
    ∃ r, candidate_step ua ok text src pname acc m = acc ++ r := by
  rw [candidate_step]
  by_cases h1 : (blacklist.contains (pyLower (pyStrip m)) ||
      decide (pyLen (pyLower (pyStrip m)) < 3) ||
      decide (15 < pyLen (pyLower (pyStrip m))) ||
      isDigitStr (pyLower (pyStrip m)) ||
      !alphaNoSpaceHyphen (pyLower (pyStrip m)) ||
      ((acc.map (fun c => c.term)).contains (pyLower (pyStrip m)))) = true
  · rw [if_pos h1]
    exact ⟨[], (List.append_nil acc).symm⟩
  · rw [if_neg h1]
    by_cases h2 : is_valid_slang ua ok (pyLower (pyStrip m)) = true
    · rw [if_pos h2]
      exact ⟨_, rfl⟩
    · rw [if_neg h2]
      exact ⟨[], (List.append_nil acc).symm⟩

theorem foldl_append_of_step {α : Type} {step : List Candidate → α → List Candidate}
    (hstep : ∀ acc m, ∃ r, step acc m = acc ++ r) (ms : List α) :
    ∀ acc, ∃ r, ms.foldl step acc = acc ++ r := by
  induction ms with
  | nil => intro acc; exact ⟨[], (List.append_nil acc).symm⟩
  | cons m ms ih =>
      intro acc
      obtain ⟨r1, h1⟩ := hstep acc m
      obtain ⟨r2, h2⟩ := ih (acc ++ r1)
      exact ⟨r1 ++ r2, by rw [List.foldl_cons, h1, h2, List.append_assoc]⟩

theorem regex_candidates_append (ua : Bool) (ok : String → Bool)
    (text src : String) (acc0 : List Candidate) :
    ∃ rest, regex_candidates ua ok text src acc0 = acc0 ++ rest := by
  rw [regex_candidates]
  exact foldl_append_of_step
    (fun acc pr => foldl_append_of_step
      (fun acc2 m => candidate_step_append ua ok text src pr.1 acc2 m)
      (findall pr.2 (pyLower text).data) acc)
    slang_patterns acc0

/-! Dedup lemmas. -/

theorem dedup_candidates_sublist :
    ∀ (l : List Candidate) (seen : List String),
      List.Sublist (dedup_candidates l seen) l := by
  intro l
  induction l with
  | nil => intro seen; exact List.Sublist.refl []
  | cons c cs ih =>
      intro seen
      rw [dedup_candidates]
      by_cases h : seen.contains c.term
      · rw [if_pos h]
        exact (ih seen).trans (List.sublist_cons_self c cs)
      · rw [if_neg h]
        exact List.Sublist.cons₂ c (ih (c.term :: seen))

theorem dedup_candidates_nodup :
    ∀ (l : List Candidate) (seen : List String),
      ((dedup_candidates l seen).map (fun c => c.term)).Nodup ∧
      ∀ x ∈ dedup_candidates l seen, x.term ∉ seen := by
  intro l
  induction l with
  | nil => intro seen; exact ⟨List.nodup_nil, by intro x hx; cases hx⟩
  | cons c cs ih =>
      intro seen
      rw [dedup_candidates]
      by_cases h : seen.contains c.term
      · rw [if_pos h]
        exact ih seen
      · rw [if_neg h]
        have hseen := ih (c.term :: seen)
        constructor
        · rw [List.map_cons, List.nodup_cons]
          constructor
          · intro hc
            obtain ⟨x, hx, hxe⟩ := List.mem_map.1 hc
            exact hseen.2 x hx (hxe ▸ List.mem_cons_self _ _)
          · exact hseen.1
        · intro x hx
          rcases List.mem_cons.1 hx with rfl | hx2
          · intro hc
            exact h (by simpa using hc)
          · intro hc
            exact hseen.2 x hx2 (List.mem_cons_of_mem _ hc)

theorem dedup_candidates_mem {l : List Candidate} {seen : List String}
    {x : Candidate} (h : x ∈ dedup_candidates l seen) : x ∈ l :=
  (dedup_candidates_sublist l seen).subset h

/-- First-occurrence dedup on a list sorted by confidence descending keeps
the maximum-confidence entry of every term: any input candidate sharing a
term with a surviving candidate has no higher confidence. -/
theorem dedup_candidates_max :
    ∀ (l : List Candidate) (seen : List String),
      l.Pairwise (fun a b => b.confidence ≤ a.confidence) →
      ∀ c ∈ dedup_candidates l seen, ∀ x ∈ l, x.term = c.term →
        x.confidence ≤ c.confidence := by
  intro l
  induction l with
  | nil => intro seen _ c hc; cases hc
  | cons a t ih =>
      intro seen hp c hc x hx hxt
      rw [List.pairwise_cons] at hp
      rw [dedup_candidates] at hc
      by_cases h : seen.contains a.term
      · rw [if_pos h] at hc
        rcases List.mem_cons.1 hx with rfl | hx2
        · exfalso
          apply (dedup_candidates_nodup t seen).2 c hc
          rw [← hxt]
          simpa using h
        · exact ih seen hp.2 c hc x hx2 hxt
      · rw [if_neg h] at hc
        rcases List.mem_cons.1 hc with rfl | hc2
        · rcases List.mem_cons.1 hx with rfl | hx2
          · exact le_refl _
          · exact hp.1 x hx2
        · rcases List.mem_cons.1 hx with hxa | hx2
          · exfalso
            apply (dedup_candidates_nodup t (a.term :: seen)).2 c hc2
            rw [← hxt, hxa]
            exact List.mem_cons_self _ _
          · exact ih _ hp.2 c hc2 x hx2 hxt

/-! Sortedness. -/

theorem pairwise_insBy {α : Type} {R : α → α → Prop} (keep : α → α → Bool)
    (h1 : ∀ d c, keep d c = true → R d c)
    (h2 : ∀ d c, keep d c = false → R c d)
    (htr : ∀ a b c, R a b → R b c → R a c) (c : α) :
    ∀ l : List α, l.Pairwise R → (insBy keep c l).Pairwise R := by
  intro l
  induction l with
  | nil => intro _; exact List.pairwise_singleton R c
  | cons d ds ih =>
      intro hp
      rw [List.pairwise_cons] at hp
      rw [insBy]
      by_cases hk : keep d c
      · rw [if_pos hk, List.pairwise_cons]
        constructor
        · intro y hy
          rcases (mem_insBy keep c ds y).1 hy with rfl | hy2
          · exact h1 d y hk
          · exact hp.1 y hy2
        · exact ih hp.2
      · rw [if_neg hk, List.pairwise_cons]
        constructor
        · intro y hy
          rcases List.mem_cons.1 hy with rfl | hy2
          · exact h2 y c (Bool.eq_false_iff.2 hk)
          · exact htr c d y (h2 d c (Bool.eq_false_iff.2 hk)) (hp.1 y hy2)
        · rw [List.pairwise_cons]
          exact hp

theorem pairwise_sortByb {α : Type} {R : α → α → Prop} (keep : α → α → Bool)
    (h1 : ∀ d c, keep d c = true → R d c)
    (h2 : ∀ d c, keep d c = false → R c d)
    (htr : ∀ a b c, R a b → R b c → R a c) (l : List α) :
    (sortByb keep l).Pairwise R := by
  rw [sortByb]
  have : ∀ (l2 : List α) (acc : List α), acc.Pairwise R →
      (l2.foldl (fun acc c => insBy keep c acc) acc).Pairwise R := by
    intro l2
    induction l2 with
    | nil => intro acc h; exact h
    | cons c cs ih =>
        intro acc h
        rw [List.foldl_cons]
        exact ih _ (pairwise_insBy keep h1 h2 htr c acc h)
  exact this l [] List.Pairwise.nil

/-- Claim C8: every allow-list term contained in the lowercased text is
emitted with its fixed confidence (0.9 fashion, 0.95 gen-alpha) and the
pattern tag naming the list, and the allow-list candidates precede
everything the regex stage adds; on "your fit is fire, no cap" the
extractor returns exactly fit, fire and no cap, each at confidence 0.9 via
the fashion allow-list, whatever the external lookup does. -/
theorem C8_allowlist_emission :
    (∀ (text src t : String), t ∈ fashion_whitelist →
      containsSub t.data (pyLower text).data = true →
      mkAllowCand text src "fashion_whitelist" (9/10) t ∈ allow_candidates text src) ∧
    (∀ (text src t : String), t ∈ gen_alpha_terms →
      containsSub t.data (pyLower text).data = true →
      mkAllowCand text src "gen_alpha_confirmed" (19/20) t ∈ allow_candidates text src) ∧
    (∀ (ua : Bool) (ok : String → Bool) (text src : String),
      ∃ rest, regex_candidates ua ok text src (allow_candidates text src) =
        allow_candidates text src ++ rest) ∧
    (∀ (ua : Bool) (ok : String → Bool),
      extract_slang_candidates ua ok "your fit is fire, no cap" "reddit" =
        [⟨"fire", "your fit is fire, no cap", "fashion_whitelist", 9/10, "reddit"⟩,
         ⟨"fit", "your fit is fire, no cap", "fashion_whitelist", 9/10, "reddit"⟩,
         ⟨"no cap", "your fit is fire, no cap", "fashion_whitelist", 9/10, "reddit"⟩]) := by
  refine ⟨?_, ?_, ?_, ?_⟩
  · intro text src t ht hsub
    exact List.mem_append_left _ (List.mem_map_of_mem _ (List.mem_filter.2 ⟨ht, hsub⟩))
  · intro text src t ht hsub
    exact List.mem_append_right _ (List.mem_map_of_mem _ (List.mem_filter.2 ⟨ht, hsub⟩))
  · intro ua ok text src
    exact regex_candidates_append ua ok text src _
  · intro ua ok
    rfl

/-- Claim C9: the returned candidate list holds at most 10 entries, is
sorted by confidence descending, has pairwise distinct terms, every
returned candidate is one the pipeline actually produced, deduplication
keeps the highest-confidence candidate of each term, and every
regex-derived candidate in the result passed the
stopword/length/digit/charset filters and carries confidence 0.7 for the
definition pattern and 0.5 for every other regex pattern. -/
theorem C9_regex_filter_rank_cap :
    ∀ (ua : Bool) (ok : String → Bool) (text src : String),
      (extract_slang_candidates ua ok text src).length ≤ 10 ∧
      (extract_slang_candidates ua ok text src).Pairwise
        (fun a b => b.confidence ≤ a.confidence) ∧
      ((extract_slang_candidates ua ok text src).map (fun c => c.term)).Nodup ∧
      (∀ c ∈ extract_slang_candidates ua ok text src,
        c ∈ regex_candidates ua ok text src (allow_candidates text src)) ∧
      (∀ c ∈ extract_slang_candidates ua ok text src,
        ∀ x ∈ regex_candidates ua ok text src (allow_candidates text src),
          x.term = c.term → x.confidence ≤ c.confidence) ∧
      ∀ c ∈ extract_slang_candidates ua ok text src, c.pattern ∈ regexNames →
        blacklist.contains c.term = false ∧ 3 ≤ pyLen c.term ∧ pyLen c.term ≤ 15 ∧
        isDigitStr c.term = false ∧ alphaNoSpaceHyphen c.term = true ∧
        c.confidence = (if c.pattern = "definition" then (7 : ℚ)/10 else 1/2) := by
  intro ua ok text src
  rw [extract_slang_candidates]
  by_cases hv : (text.data.isEmpty || decide (pyLen (pyStrip text) < 3)) = true
  · rw [if_pos hv]
    refine ⟨by simp, List.Pairwise.nil, List.nodup_nil, ?_, ?_, ?_⟩
    · intro c hc
      cases hc
    · intro c hc
      cases hc
    · intro c hc
      cases hc
  · rw [if_neg hv]
    have hsorted : (sortByb confKeep
        (regex_candidates ua ok text src (allow_candidates text src))).Pairwise
        (fun a b : Candidate => b.confidence ≤ a.confidence) :=
      pairwise_sortByb confKeep
        (fun d c h => of_decide_eq_true h)
        (fun d c h => le_of_not_le (of_decide_eq_false h))
        (fun a b c hab hbc => le_trans hbc hab) _
    refine ⟨List.length_take_le 10 _, ?_, ?_, ?_, ?_, ?_⟩
    · exact List.Pairwise.sublist (List.take_sublist _ _)
        (List.Pairwise.sublist (dedup_candidates_sublist _ _) hsorted)
    · have hd := (dedup_candidates_nodup (sortByb confKeep
        (regex_candidates ua ok text src (allow_candidates text src))) []).1
      exact List.Nodup.sublist (List.Sublist.map _ (List.take_sublist _ _)) hd
    · intro c hc
      have hc2 := dedup_candidates_mem ((List.take_sublist 10 _).subset hc)
      rw [mem_sortByb] at hc2
      exact hc2
    · intro c hc x hx hxt
      have hc2 := (List.take_sublist 10 _).subset hc
      exact dedup_candidates_max _ [] hsorted c hc2 x
        ((mem_sortByb confKeep _ x).2 hx) hxt
    · intro c hc hcp
      have hc2 := dedup_candidates_mem ((List.take_sublist 10 _).subset hc)
      rw [mem_sortByb] at hc2
      rcases regex_candidates_mem hc2 with h | ⟨pname, hpname, hprop⟩
      · rcases allow_candidates_mem h with ⟨hp, -⟩ | ⟨hp, -⟩
        · rw [hp] at hcp
          exact absurd hcp (by decide)
        · rw [hp] at hcp
          exact absurd hcp (by decide)
      · obtain ⟨hpat, hb, h3, h15, hdg, ha, hconf⟩ := hprop
        rw [hpat]
        exact ⟨hb, h3, h15, hdg, ha, hconf⟩

end Genwear
